import Mathlib

/-!
Shallow embedding of the markdown chunking strategy in
`graphrag/index/operations/chunk_text/markdown_strategy.py` (`run_markdown`).

Python strings are modelled as `List Char`; `str.split`, `str.strip` and the
three regexes of the source are modelled by executable scanners below, each
annotated with the source construct it embeds.  The generator is modelled as
a function producing the finite list of its events (yielded chunks and
`tick` calls) in order.
-/

/-- ASCII whitespace recognised by Python's `str.split()` / `str.strip()`
and by the regex class `\s` (space, tab, newline, carriage return,
vertical tab, form feed). -/
def isWs (c : Char) : Bool :=
  c == ' ' || c == '\t' || c == '\n' || c == '\r' || c == '\x0b' || c == '\x0c'

/-- Helper for `wordCount`: counts word starts; the flag records whether the
previous character was inside a word. -/
def wcAux : List Char → Bool → Nat
  | [], _ => 0
  | c :: rest, inw =>
    if isWs c then wcAux rest false
    else (if inw then 0 else 1) + wcAux rest true

/-- `len(s.split())` of Python: the number of maximal non-whitespace runs. -/
def wordCount (s : List Char) : Nat := wcAux s false

/-- Prepend a character to the first part of a paragraph list. -/
def consHead (c : Char) : List (List Char) → List (List Char)
  | [] => [[c]]
  | p :: ps => (c :: p) :: ps

/-- Python's `text.split('\n\n')` (line 44 of the source): leftmost,
non-overlapping occurrences of the two-newline separator. -/
def splitParas : List Char → List (List Char)
  | [] => [[]]
  | [c] => [[c]]
  | c1 :: c2 :: rest =>
    if c1 = '\n' then
      if c2 = '\n' then [] :: splitParas rest
      else consHead c1 (splitParas (c2 :: rest))
    else consHead c1 (splitParas (c2 :: rest))

/-- Python's `"\n\n".join(parts)`. -/
def joinParas : List (List Char) → List Char
  | [] => []
  | [p] => p
  | p :: q :: rest => p ++ '\n' :: '\n' :: joinParas (q :: rest)

/-- Python's `paragraph.strip()`: drop leading and trailing whitespace. -/
def stripChars (s : List Char) : List Char :=
  ((s.dropWhile isWs).reverse.dropWhile isWs).reverse

/-- Length of the leading run of `'#'` characters. -/
def hashCount : List Char → Nat
  | [] => 0
  | c :: rest => if c = '#' then hashCount rest + 1 else 0

/-- What remains after the leading run of `'#'` characters. -/
def dropHash : List Char → List Char
  | [] => []
  | c :: rest => if c = '#' then dropHash rest else c :: rest

/-- `header_pattern.match(t)` of the source (line 27/54): the regex
`^(#{1,6})\s+(.+)$` with `re.MULTILINE`, anchored at the start of `t`.
It succeeds iff `t` starts with 1-6 `'#'`, then a whitespace character, and
then - after possibly more whitespace, of which only newlines can stand
before the first `.`-matched character - at least one non-newline character.
The backtracking search reduces to: after the hashes and one whitespace
character, skipping further newlines must leave something. -/
def hdrMatch (t : List Char) : Bool :=
  if 1 ≤ hashCount t ∧ hashCount t ≤ 6 then
    match dropHash t with
    | [] => false
    | c :: rest => isWs c && !(rest.dropWhile (fun x => decide (x = '\n'))).isEmpty
  else false

/-- The literal `<table>`. -/
def tblO : List Char := ['<', 't', 'a', 'b', 'l', 'e', '>']

/-- The literal `</table>`. -/
def tblC : List Char := ['<', '/', 't', 'a', 'b', 'l', 'e', '>']

/-- Does `pat` occur as a contiguous substring? -/
def hasSub (pat : List Char) : List Char → Bool
  | [] => pat.isEmpty
  | c :: rest => pat.isPrefixOf (c :: rest) || hasSub pat rest

/-- `table_pattern.search(p)` of the source (line 30): the regex
`(<html>.*?<table>.*?</table>.*?</html>|<table>.*?</table>)` with `DOTALL`
finds a match iff some `<table>` is followed later by `</table>` (the
`<html>` alternative implies the bare one, and lazy quantifiers do not
affect existence). -/
def hasTable : List Char → Bool
  | [] => false
  | c :: rest =>
    if tblO.isPrefixOf (c :: rest) then hasSub tblC (List.drop 7 (c :: rest))
    else hasTable rest

/-- Scan for a `')'` before any newline (the `.*?\)` tail of the image regex). -/
def parenScan : List Char → Bool
  | [] => false
  | c :: rest => if c = ')' then true else if c = '\n' then false else parenScan rest

/-- Scan for an adjacent `](` before any newline, then for the closing
parenthesis (`.*?\]\(.*?\)` of the image regex; `.` never matches `'\n'`). -/
def rbScan : List Char → Bool
  | [] => false
  | [_] => false
  | c1 :: c2 :: rest =>
    if c1 = ']' ∧ c2 = '(' then parenScan rest
    else if c1 = '\n' then false
    else rbScan (c2 :: rest)

/-- Does a markdown image reference begin at this position? -/
def imgAt : List Char → Bool
  | [] => false
  | [_] => false
  | c1 :: c2 :: rest => if c1 = '!' ∧ c2 = '[' then rbScan rest else false

/-- `image_pattern.search(p)` of the source (line 33): the regex
`!\[.*?\]\(.*?\)` (no `DOTALL`) finds a match somewhere in the string. -/
def hasImage : List Char → Bool
  | [] => false
  | c :: rest => imgAt (c :: rest) || hasImage rest

/-- Chunk text assembly used at the header-triggered and final flush sites
(lines 64-66 and 142-145): prefix the header when it is non-empty. -/
def mkText (hdr : List Char) (ps : List (List Char)) : List Char :=
  if hdr = [] then joinParas ps else hdr ++ '\n' :: '\n' :: joinParas ps

/-- The record yielded by the generator
(`TextChunk(text_chunk=..., source_doc_indices=..., n_tokens=...)`). -/
structure TextChunk where
  text_chunk : List Char
  source_doc_indices : List Nat
  n_tokens : Nat
deriving DecidableEq

/-- The chunking configuration; `run_markdown` reads `config.size` but its
algorithm never uses `config.overlap` (it is only logged). -/
structure ChunkingConfig where
  size : Int
  overlap : Int

/-- The per-document mutable state of `run_markdown` (lines 47-49). -/
structure DocState where
  current_chunk : List (List Char)
  current_header_level : Nat
  current_header : List Char
deriving DecidableEq

/-- One flushed chunk, keeping next to the emitted `text`/`tokens` the
components the source joined to build them: the header that was prefixed
(`[]` if none), the pending paragraph list, and whether the flush came from
the size check (lines 108-120 / 126-138) rather than from a header or the
end of the document. -/
structure FlushRec where
  text : List Char
  tokens : Nat
  hdr : List Char
  paras : List (List Char)
  viaSize : Bool
deriving DecidableEq

/-- Initial per-document state: `current_chunk = []`,
`current_header_level = 0`, `current_header = ""`. -/
def initState : DocState := ⟨[], 0, []⟩

/-- Processing of one paragraph (lines 52-138 of the source). -/
def stepPara (size : Int) (st : DocState) (p : List Char) : List FlushRec × DocState :=
  if hdrMatch (stripChars p) then
    -- header branch (lines 56-79); group(1) length is the leading hash run
    if st.current_chunk ≠ [] ∧
        (hashCount (stripChars p) ≤ st.current_header_level ∨ st.current_header_level = 0) then
      ([{ text := mkText st.current_header st.current_chunk,
          tokens := wordCount (mkText st.current_header st.current_chunk),
          hdr := st.current_header, paras := st.current_chunk, viaSize := false }],
       { current_chunk := [], current_header_level := hashCount (stripChars p),
         current_header := p })
    else
      ([], { current_chunk := st.current_chunk,
             current_header_level := hashCount (stripChars p), current_header := p })
  else if hasTable p || hasImage p then
    -- table/image branch (lines 96-120): possibly seed the held header
    if st.current_chunk = [] ∧ st.current_header ≠ [] then
      if (wordCount (joinParas ([st.current_header] ++ [p])) : Int) > size then
        ([{ text := joinParas ([st.current_header] ++ [p]),
            tokens := wordCount (joinParas ([st.current_header] ++ [p])),
            hdr := [], paras := [st.current_header] ++ [p], viaSize := true }],
         { current_chunk := [], current_header_level := st.current_header_level,
           current_header := [] })
      else
        ([], { current_chunk := [st.current_header] ++ [p],
               current_header_level := st.current_header_level, current_header := [] })
    else
      if (wordCount (joinParas (st.current_chunk ++ [p])) : Int) > size then
        ([{ text := joinParas (st.current_chunk ++ [p]),
            tokens := wordCount (joinParas (st.current_chunk ++ [p])),
            hdr := [], paras := st.current_chunk ++ [p], viaSize := true }],
         { current_chunk := [], current_header_level := st.current_header_level,
           current_header := st.current_header })
      else
        ([], { current_chunk := st.current_chunk ++ [p],
               current_header_level := st.current_header_level,
               current_header := st.current_header })
  else
    -- plain branch (lines 121-138)
    if (wordCount (joinParas (st.current_chunk ++ [p])) : Int) > size then
      ([{ text := joinParas (st.current_chunk ++ [p]),
          tokens := wordCount (joinParas (st.current_chunk ++ [p])),
          hdr := [], paras := st.current_chunk ++ [p], viaSize := true }],
       { current_chunk := [], current_header_level := st.current_header_level,
         current_header := st.current_header })
    else
      ([], { current_chunk := st.current_chunk ++ [p],
             current_header_level := st.current_header_level,
             current_header := st.current_header })

/-- Left-to-right processing of a document's paragraph list. -/
def stepParas (size : Int) : DocState → List (List Char) → List FlushRec × DocState
  | st, [] => ([], st)
  | st, p :: ps =>
    ((stepPara size st p).1 ++ (stepParas size (stepPara size st p).2 ps).1,
     (stepParas size (stepPara size st p).2 ps).2)

/-- The end-of-document flush (lines 141-154): prefix the held header only
when it is non-empty and not already a member of `current_chunk`. -/
def finalFlush (st : DocState) : List FlushRec :=
  if st.current_chunk = [] then []
  else
    [{ text := mkText (if st.current_header ≠ [] ∧ st.current_header ∉ st.current_chunk
                       then st.current_header else []) st.current_chunk,
       tokens := wordCount (mkText (if st.current_header ≠ [] ∧ st.current_header ∉ st.current_chunk
                                    then st.current_header else []) st.current_chunk),
       hdr := (if st.current_header ≠ [] ∧ st.current_header ∉ st.current_chunk
               then st.current_header else []),
       paras := st.current_chunk, viaSize := false }]

/-- All flushes produced for one document, in order.  The empty document is
skipped (line 38: `if not text`). -/
def chunksDoc (size : Int) (text : List Char) : List FlushRec :=
  if text = [] then []
  else
    (stepParas size initState (splitParas text)).1 ++
      finalFlush (stepParas size initState (splitParas text)).2

/-- An observable event of the generator: a yielded chunk or a `tick(1)` call. -/
inductive Event where
  | chunk (c : TextChunk)
  | tick
deriving DecidableEq

/-- The `TextChunk` constructed from a flush for document index `i`. -/
def renderChunk (i : Nat) (f : FlushRec) : TextChunk :=
  { text_chunk := f.text, source_doc_indices := [i], n_tokens := f.tokens }

/-- The events of one document: its chunks, then the trailing `tick(1)`
(line 40 for the empty document, line 157 otherwise). -/
def docEvents (size : Int) (i : Nat) (t : List Char) : List Event :=
  (chunksDoc size t).map (fun f => Event.chunk (renderChunk i f)) ++ [Event.tick]

/-- Events of the documents from index `i` on. -/
def runFrom (size : Int) : Nat → List (List Char) → List Event
  | _, [] => []
  | i, t :: ts => docEvents size i t ++ runFrom size (i + 1) ts

/-- The full event sequence of `run_markdown(input, config, tick)`.  Only
`config.size` is consulted; `config.overlap` is never used. -/
def run_markdown (input : List (List Char)) (config : ChunkingConfig) : List Event :=
  runFrom config.size 0 input

/-- The chunks of an event sequence, in order. -/
def chunksOf : List Event → List TextChunk
  | [] => []
  | Event.chunk c :: es => c :: chunksOf es
  | Event.tick :: es => chunksOf es

/-- The number of `tick` calls in an event sequence. -/
def tickCount : List Event → Nat
  | [] => 0
  | Event.chunk _ :: es => tickCount es
  | Event.tick :: es => tickCount es + 1

/-- Concatenation of a list of paragraph lists. -/
def catPs : List (List (List Char)) → List (List Char)
  | [] => []
  | l :: ls => l ++ catPs ls

/-- Is the paragraph classified as a header by the source (line 54)? -/
def hdrB (q : List Char) : Bool := hdrMatch (stripChars q)

/-- Is the paragraph not classified as a header? -/
def nonHdr (q : List Char) : Bool := ! hdrB q

/-- Invariant: the held header is empty or header-classified. -/
def hdrInv (st : DocState) : Prop :=
  st.current_header = [] ∨ hdrB st.current_header = true

/-- The pending paragraph lists of a document's chunks, concatenated in
emission order: the paragraphs recoverable from the chunks, seeded header
context included, flush-time header prefixes excluded. -/
def recoveredParas (size : Int) (t : List Char) : List (List Char) :=
  catPs ((chunksDoc size t).map FlushRec.paras)

/-- Occurrences of the paragraph `p` in a paragraph list. -/
def countp (p : List Char) (l : List (List Char)) : Nat :=
  List.countP (fun q => decide (q = p)) l

/-- Spec-side definition, following the wording of the specification: the
whole (already trimmed) paragraph is a single ATX-style header line - 1-6
leading `'#'` characters, then whitespace, then non-empty header text, with
no newline anywhere (it is one line). -/
def atxLineSpec (t : List Char) : Bool :=
  (decide (1 ≤ hashCount t) && decide (hashCount t ≤ 6)) &&
  (match dropHash t with
   | [] => false
   | c :: rest => isWs c && !(rest.dropWhile isWs).isEmpty) &&
  !(t.contains '\n')

/-! ### Word-count lemmas -/

lemma wcAux_append_newline (a : List Char) : ∀ (b : List Char) (i : Bool),
    wcAux (a ++ '\n' :: b) i = wcAux a i + wcAux b false := by
  induction a with
  | nil =>
    intro b i
    have hws : isWs '\n' = true := by decide
    simp [wcAux, hws]
  | cons c a ih =>
    intro b i
    by_cases h : isWs c = true
    · simp [wcAux, h, ih]
    · simp [wcAux, h, ih, Nat.add_assoc]

lemma wordCount_append_nlnl (a b : List Char) :
    wordCount (a ++ '\n' :: '\n' :: b) = wordCount a + wordCount b := by
  unfold wordCount
  have h1 := wcAux_append_newline a ('\n' :: b) false
  have hws : isWs '\n' = true := by decide
  have h2 : wcAux ('\n' :: b) false = wcAux b false := by simp [wcAux, hws]
  rw [h1, h2]

lemma wordCount_joinParas_cons (p : List Char) (ps : List (List Char)) :
    wordCount (joinParas (p :: ps)) = wordCount p + wordCount (joinParas ps) := by
  cases ps with
  | nil => simp [joinParas, wordCount, wcAux]
  | cons q qs => simp [joinParas, wordCount_append_nlnl]

lemma wordCount_joinParas_snoc (ps : List (List Char)) (p : List Char) :
    wordCount (joinParas (ps ++ [p])) = wordCount (joinParas ps) + wordCount p := by
  induction ps with
  | nil => simp [joinParas, wordCount, wcAux]
  | cons q qs ih =>
    rw [List.cons_append, wordCount_joinParas_cons, ih, wordCount_joinParas_cons]
    omega

lemma wordCount_mkText (h : List Char) (ps : List (List Char)) :
    wordCount (mkText h ps) = wordCount h + wordCount (joinParas ps) := by
  by_cases hh : h = []
  · simp [mkText, hh, wordCount, wcAux]
  · simp [mkText, hh, wordCount_append_nlnl]

lemma join_mem_split : ∀ (ps : List (List Char)) (p : List Char), p ∈ ps →
    ∃ a b, joinParas ps = a ++ p ++ b
  | [], p, hp => by simp at hp
  | q :: qs, p, hp => by
    rcases List.mem_cons.mp hp with h | h
    · subst h
      cases qs with
      | nil => exact ⟨[], [], by simp [joinParas]⟩
      | cons r rs => exact ⟨[], '\n' :: '\n' :: joinParas (r :: rs), by simp [joinParas]⟩
    · cases qs with
      | nil => simp at h
      | cons r rs =>
        obtain ⟨a, b, hab⟩ := join_mem_split (r :: rs) p h
        exact ⟨q ++ '\n' :: '\n' :: a, b, by simp [joinParas, hab]⟩

/-! ### Event and concatenation lemmas -/

lemma catPs_append (xs ys : List (List (List Char))) :
    catPs (xs ++ ys) = catPs xs ++ catPs ys := by
  induction xs with
  | nil => simp [catPs]
  | cons l ls ih => simp [catPs, ih]

lemma chunksOf_append (a b : List Event) :
    chunksOf (a ++ b) = chunksOf a ++ chunksOf b := by
  induction a with
  | nil => simp [chunksOf]
  | cons e es ih => cases e <;> simp [chunksOf, ih]

lemma tickCount_append (a b : List Event) :
    tickCount (a ++ b) = tickCount a + tickCount b := by
  induction a with
  | nil => simp [tickCount]
  | cons e es ih => cases e <;> simp [tickCount, ih, Nat.add_comm, Nat.add_assoc]

lemma chunksOf_map_chunk (l : List FlushRec) (g : FlushRec → TextChunk) :
    chunksOf (l.map (fun f => Event.chunk (g f))) = l.map g := by
  induction l with
  | nil => rfl
  | cons f fs ih => simp [chunksOf, ih]

lemma tickCount_map_chunk (l : List FlushRec) (g : FlushRec → TextChunk) :
    tickCount (l.map (fun f => Event.chunk (g f))) = 0 := by
  induction l with
  | nil => rfl
  | cons f fs ih => simp [tickCount, ih]

lemma chunksOf_docEvents (size : Int) (i : Nat) (t : List Char) :
    chunksOf (docEvents size i t) = (chunksDoc size t).map (renderChunk i) := by
  simp [docEvents, chunksOf_append, chunksOf_map_chunk, chunksOf]

lemma tickCount_docEvents (size : Int) (i : Nat) (t : List Char) :
    tickCount (docEvents size i t) = 1 := by
  simp [docEvents, tickCount_append, tickCount_map_chunk, tickCount]

lemma tickCount_runFrom (size : Int) : ∀ (l : List (List Char)) (i : Nat),
    tickCount (runFrom size i l) = l.length := by
  intro l; induction l with
  | nil => intro i; rfl
  | cons t ts ih =>
    intro i
    simp [runFrom, tickCount_append, tickCount_docEvents, ih, Nat.add_comm]

/-! ### Shape of every flush: the token count is recomputed from the text,
the text is the (possibly header-prefixed) join of the pending paragraphs,
and a size-triggered flush carries no header prefix and exceeds the bound. -/

lemma stepPara_shape (size : Int) (st : DocState) (p : List Char) :
    ∀ f ∈ (stepPara size st p).1,
      f.tokens = wordCount f.text ∧ f.text = mkText f.hdr f.paras ∧
        (f.viaSize = true → f.hdr = [] ∧ (f.tokens : Int) > size) := by
  intro f hf
  unfold stepPara at hf
  split at hf
  · split at hf
    · rw [List.mem_singleton] at hf
      subst hf
      refine ⟨rfl, rfl, ?_⟩
      intro hv
      exact absurd hv (by simp)
    · simp at hf
  · split at hf
    · split at hf
      · split at hf
        · rename_i hsz
          rw [List.mem_singleton] at hf
          subst hf
          exact ⟨rfl, by simp [mkText], fun _ => ⟨rfl, hsz⟩⟩
        · simp at hf
      · split at hf
        · rename_i hsz
          rw [List.mem_singleton] at hf
          subst hf
          exact ⟨rfl, by simp [mkText], fun _ => ⟨rfl, hsz⟩⟩
        · simp at hf
    · split at hf
      · rename_i hsz
        rw [List.mem_singleton] at hf
        subst hf
        exact ⟨rfl, by simp [mkText], fun _ => ⟨rfl, hsz⟩⟩
      · simp at hf

lemma stepParas_shape (size : Int) : ∀ (ps : List (List Char)) (st : DocState),
    ∀ f ∈ (stepParas size st ps).1,
      f.tokens = wordCount f.text ∧ f.text = mkText f.hdr f.paras ∧
        (f.viaSize = true → f.hdr = [] ∧ (f.tokens : Int) > size) := by
  intro ps
  induction ps with
  | nil => intro st f hf; simp [stepParas] at hf
  | cons p ps ih =>
    intro st f hf
    simp only [stepParas] at hf
    rcases List.mem_append.mp hf with h | h
    · exact stepPara_shape size st p f h
    · exact ih (stepPara size st p).2 f h

lemma finalFlush_shape (st : DocState) :
    ∀ f ∈ finalFlush st,
      f.tokens = wordCount f.text ∧ f.text = mkText f.hdr f.paras ∧
        f.viaSize = false ∧ f.paras = st.current_chunk := by
  intro f hf
  unfold finalFlush at hf
  split at hf
  · simp at hf
  · rw [List.mem_singleton] at hf
    subst hf
    exact ⟨rfl, rfl, rfl, rfl⟩

lemma chunksDoc_shape (size : Int) (t : List Char) :
    ∀ f ∈ chunksDoc size t,
      f.tokens = wordCount f.text ∧ f.text = mkText f.hdr f.paras ∧
        (f.viaSize = true → f.hdr = [] ∧ (f.tokens : Int) > size) := by
  intro f hf
  unfold chunksDoc at hf
  split at hf
  · simp at hf
  · rcases List.mem_append.mp hf with h | h
    · exact stepParas_shape size (splitParas t) initState f h
    · obtain ⟨h1, h2, h3, _⟩ := finalFlush_shape _ f h
      refine ⟨h1, h2, ?_⟩
      intro hv
      rw [h3] at hv
      cases hv

/-! ### Size invariant: between steps the pending paragraphs never exceed
`size` words, hence non-size flushes stay within `size` words before the
header prefix is counted. -/

lemma stepPara_inv (size : Int) (h0 : 0 ≤ size) (st : DocState) (p : List Char)
    (hst : (wordCount (joinParas st.current_chunk) : Int) ≤ size) :
    (∀ f ∈ (stepPara size st p).1, f.viaSize = false →
        (wordCount (joinParas f.paras) : Int) ≤ size) ∧
      (wordCount (joinParas (stepPara size st p).2.current_chunk) : Int) ≤ size := by
  have hnil : (wordCount (joinParas ([] : List (List Char))) : Int) ≤ size := by
    simpa [joinParas, wordCount, wcAux] using h0
  unfold stepPara
  split
  · split
    · refine ⟨?_, hnil⟩
      intro f hf _
      rw [List.mem_singleton] at hf
      subst hf
      exact hst
    · exact ⟨by intro f hf; simp at hf, hst⟩
  · split
    · split
      · split
        · rename_i hsz
          refine ⟨?_, hnil⟩
          intro f hf hv
          rw [List.mem_singleton] at hf
          subst hf
          cases hv
        · rename_i hsz
          refine ⟨by intro f hf; simp at hf, ?_⟩
          show (wordCount (joinParas ([st.current_header] ++ [p])) : Int) ≤ size
          omega
      · split
        · rename_i hsz
          refine ⟨?_, hnil⟩
          intro f hf hv
          rw [List.mem_singleton] at hf
          subst hf
          cases hv
        · rename_i hsz
          refine ⟨by intro f hf; simp at hf, ?_⟩
          show (wordCount (joinParas (st.current_chunk ++ [p])) : Int) ≤ size
          omega
    · split
      · rename_i hsz
        refine ⟨?_, hnil⟩
        intro f hf hv
        rw [List.mem_singleton] at hf
        subst hf
        cases hv
      · rename_i hsz
        refine ⟨by intro f hf; simp at hf, ?_⟩
        show (wordCount (joinParas (st.current_chunk ++ [p])) : Int) ≤ size
        omega

lemma stepParas_inv (size : Int) (h0 : 0 ≤ size) : ∀ (ps : List (List Char)) (st : DocState),
    (wordCount (joinParas st.current_chunk) : Int) ≤ size →
    (∀ f ∈ (stepParas size st ps).1, f.viaSize = false →
        (wordCount (joinParas f.paras) : Int) ≤ size) ∧
      (wordCount (joinParas (stepParas size st ps).2.current_chunk) : Int) ≤ size := by
  intro ps
  induction ps with
  | nil =>
    intro st h
    exact ⟨by intro f hf; simp [stepParas] at hf, by simpa [stepParas] using h⟩
  | cons p ps ih =>
    intro st h
    have h1 := stepPara_inv size h0 st p h
    have h2 := ih (stepPara size st p).2 h1.2
    constructor
    · intro f hf
      simp only [stepParas] at hf
      rcases List.mem_append.mp hf with h' | h'
      · exact h1.1 f h'
      · exact h2.1 f h'
    · simpa [stepParas] using h2.2

lemma chunksDoc_inv (size : Int) (h0 : 0 ≤ size) (t : List Char) :
    ∀ f ∈ chunksDoc size t, f.viaSize = false →
      (wordCount (joinParas f.paras) : Int) ≤ size := by
  intro f hf hv
  unfold chunksDoc at hf
  split at hf
  · simp at hf
  · have hinit : (wordCount (joinParas initState.current_chunk) : Int) ≤ size := by
      simpa [initState, joinParas, wordCount, wcAux] using h0
    have H := stepParas_inv size h0 (splitParas t) initState hinit
    rcases List.mem_append.mp hf with h | h
    · exact H.1 f h hv
    · obtain ⟨_, _, _, h4⟩ := finalFlush_shape _ f h
      rw [h4]
      exact H.2

/-! ### Trace of appended paragraphs: the pending lists of the emitted
flushes, concatenated, reproduce the appended paragraphs; filtering out
header-classified paragraphs removes exactly the seeded header contexts. -/

lemma stepPara_trace (size : Int) (st : DocState) (p : List Char) (h : hdrInv st) :
    List.filter nonHdr
        (catPs ((stepPara size st p).1.map FlushRec.paras) ++ (stepPara size st p).2.current_chunk)
      = List.filter nonHdr (st.current_chunk ++ [p]) ∧ hdrInv (stepPara size st p).2 := by
  unfold stepPara
  split
  · rename_i hp
    have hp' : nonHdr p = false := by simp [nonHdr, hdrB, hp]
    split
    · exact ⟨by simp [catPs, List.filter_append, hp'], Or.inr (by simpa [hdrB] using hp)⟩
    · exact ⟨by simp [catPs, List.filter_append, hp'], Or.inr (by simpa [hdrB] using hp)⟩
  · rename_i hp
    have hpf : hdrMatch (stripChars p) = false := by
      revert hp
      cases hdrMatch (stripChars p) <;> simp
    have hp' : nonHdr p = true := by simp [nonHdr, hdrB, hpf]
    split
    · split
      · rename_i hseed
        have hh : hdrB st.current_header = true := by
          rcases h with h1 | h1
          · exact absurd h1 hseed.2
          · exact h1
        have hh' : nonHdr st.current_header = false := by simp [nonHdr, hh]
        split
        · exact ⟨by simp [catPs, List.filter_append, hp', hh', hseed.1], Or.inl rfl⟩
        · exact ⟨by simp [catPs, List.filter_append, hp', hh', hseed.1], Or.inl rfl⟩
      · split
        · exact ⟨by simp [catPs, List.filter_append, hp'], h⟩
        · exact ⟨by simp [catPs, List.filter_append, hp'], h⟩
    · split
      · exact ⟨by simp [catPs, List.filter_append, hp'], h⟩
      · exact ⟨by simp [catPs, List.filter_append, hp'], h⟩

lemma stepParas_trace (size : Int) : ∀ (ps : List (List Char)) (st : DocState), hdrInv st →
    List.filter nonHdr
        (catPs ((stepParas size st ps).1.map FlushRec.paras) ++ (stepParas size st ps).2.current_chunk)
      = List.filter nonHdr (st.current_chunk ++ ps) := by
  intro ps
  induction ps with
  | nil => intro st h; simp [stepParas, catPs]
  | cons p ps ih =>
    intro st h
    obtain ⟨h1, h2⟩ := stepPara_trace size st p h
    have h3 := ih (stepPara size st p).2 h2
    have hr2 : List.filter nonHdr (st.current_chunk ++ p :: ps)
        = List.filter nonHdr (st.current_chunk ++ [p]) ++ List.filter nonHdr ps := by
      rw [show st.current_chunk ++ p :: ps = (st.current_chunk ++ [p]) ++ ps by simp,
          List.filter_append]
    simp only [stepParas]
    rw [List.map_append, catPs_append, List.append_assoc, List.filter_append, h3,
        List.filter_append, ← List.append_assoc, ← List.filter_append, h1, hr2]

lemma finalFlush_paras (st : DocState) :
    catPs ((finalFlush st).map FlushRec.paras) = st.current_chunk := by
  unfold finalFlush
  split
  · rename_i h
    simp [catPs, h]
  · simp [catPs]

lemma chunksDoc_trace (size : Int) (t : List Char) (h : t ≠ []) :
    List.filter nonHdr (recoveredParas size t) = List.filter nonHdr (splitParas t) := by
  unfold recoveredParas chunksDoc
  rw [if_neg h, List.map_append, catPs_append, finalFlush_paras]
  have h2 := stepParas_trace size (splitParas t) initState (Or.inl rfl)
  simpa [initState] using h2

/-! ### Counting lemmas for the atomicity claim -/

lemma countp_append (p : List Char) (a b : List (List Char)) :
    countp p (a ++ b) = countp p a + countp p b :=
  List.countP_append _ a b

lemma countp_eq_zero (p : List Char) (l : List (List Char)) :
    countp p l = 0 ↔ p ∉ l := by
  unfold countp
  rw [List.countP_eq_zero]
  constructor
  · intro h hm
    exact h p hm (by simp)
  · intro h a ha e
    simp at e
    subst e
    exact h ha

lemma countp_filter_nonHdr (p : List Char) (hp : nonHdr p = true) :
    ∀ l : List (List Char), countp p (List.filter nonHdr l) = countp p l := by
  intro l
  induction l with
  | nil => rfl
  | cons q l ih =>
    by_cases hq : nonHdr q = true
    · rw [List.filter_cons_of_pos hq]
      unfold countp at ih ⊢
      rw [List.countP_cons, List.countP_cons, ih]
    · rw [List.filter_cons_of_neg hq]
      have hne : ¬(q = p) := by
        intro e
        subst e
        exact hq hp
      unfold countp at ih ⊢
      rw [List.countP_cons, ih]
      simp [hne]

lemma catPs_count_zero (p : List Char) : ∀ ls : List (List (List Char)),
    countp p (catPs ls) = 0 →
    List.countP (fun l => decide (p ∈ l)) ls = 0 := by
  intro ls
  induction ls with
  | nil => intro _; rfl
  | cons l ls ih =>
    intro h
    rw [show catPs (l :: ls) = l ++ catPs ls from rfl, countp_append] at h
    have h1 : countp p l = 0 := by omega
    have h2 : countp p (catPs ls) = 0 := by omega
    have hm : p ∉ l := (countp_eq_zero p l).mp h1
    rw [List.countP_cons, ih h2]
    simp [hm]

lemma catPs_count_one (p : List Char) : ∀ ls : List (List (List Char)),
    countp p (catPs ls) = 1 →
    List.countP (fun l => decide (p ∈ l)) ls = 1 := by
  intro ls
  induction ls with
  | nil =>
    intro h
    simp [catPs, countp] at h
  | cons l ls ih =>
    intro h
    rw [show catPs (l :: ls) = l ++ catPs ls from rfl, countp_append] at h
    rcases Nat.eq_zero_or_pos (countp p l) with h0 | h0
    · have hm : p ∉ l := (countp_eq_zero p l).mp h0
      rw [List.countP_cons, ih (by omega)]
      simp [hm]
    · have h2 : countp p (catPs ls) = 0 := by omega
      have hm : p ∈ l := by
        by_contra hc
        rw [(countp_eq_zero p l).mpr hc] at h0
        exact absurd h0 (by simp)
      rw [List.countP_cons, catPs_count_zero p ls h2]
      simp [hm]

lemma countP_map_paras (p : List Char) (cs : List FlushRec) :
    List.countP (fun l => decide (p ∈ l)) (cs.map FlushRec.paras)
      = List.countP (fun f => decide (p ∈ f.paras)) cs := by
  induction cs with
  | nil => rfl
  | cons c cs ih => simp [List.countP_cons, ih]

/-! ### Characterisation of the header regex -/

lemma dropWhile_ne_nil_decomp {q : Char → Bool} : ∀ l : List Char, l.dropWhile q ≠ [] →
    ∃ m c r, l = m ++ c :: r ∧ (∀ x ∈ m, q x = true) ∧ q c = false := by
  intro l
  induction l with
  | nil => intro h; simp [List.dropWhile] at h
  | cons a l ih =>
    intro h
    by_cases ha : q a = true
    · rw [List.dropWhile_cons, if_pos ha] at h
      obtain ⟨m, c, r, h1, h2, h3⟩ := ih h
      refine ⟨a :: m, c, r, by rw [h1]; rfl, ?_, h3⟩
      intro x hx
      rcases List.mem_cons.mp hx with e | e
      · subst e; exact ha
      · exact h2 x e
    · exact ⟨[], a, l, rfl, by intro x hx; simp at hx, by simpa using ha⟩

lemma dropWhile_all_append {q : Char → Bool} : ∀ (m : List Char), (∀ x ∈ m, q x = true) →
    ∀ (c : Char) (r : List Char), q c = false → (m ++ c :: r).dropWhile q = c :: r := by
  intro m
  induction m with
  | nil =>
    intro _ c r hc
    rw [List.nil_append, List.dropWhile_cons, if_neg (by simp [hc])]
  | cons a m ih =>
    intro hm c r hc
    rw [List.cons_append, List.dropWhile_cons, if_pos (hm a (by simp))]
    exact ih (fun x hx => hm x (by simp [hx])) c r hc

lemma hashCount_dropHash_decomp : ∀ t : List Char,
    t = List.replicate (hashCount t) '#' ++ dropHash t := by
  intro t
  induction t with
  | nil => rfl
  | cons a l ih =>
    by_cases ha : a = '#'
    · subst ha
      rw [show hashCount ('#' :: l) = hashCount l + 1 by simp [hashCount],
          show dropHash ('#' :: l) = dropHash l by simp [dropHash],
          List.replicate_succ, List.cons_append]
      exact congrArg _ ih
    · rw [show hashCount (a :: l) = 0 by simp [hashCount, ha],
          show dropHash (a :: l) = a :: l by simp [dropHash, ha]]
      rfl

lemma hashCount_repl (k : Nat) (w : Char) (l : List Char) (hw : w ≠ '#') :
    hashCount (List.replicate k '#' ++ w :: l) = k := by
  induction k with
  | zero => simp [hashCount, hw]
  | succ k ih => simp [List.replicate_succ, hashCount, ih]

lemma dropHash_repl (k : Nat) (w : Char) (l : List Char) (hw : w ≠ '#') :
    dropHash (List.replicate k '#' ++ w :: l) = w :: l := by
  induction k with
  | zero => simp [dropHash, hw]
  | succ k ih => simp [List.replicate_succ, dropHash, ih]

lemma isWs_ne_hash (w : Char) (h : isWs w = true) : w ≠ '#' := by
  intro e
  subst e
  exact absurd h (by decide)

/-! ### Whitespace-only documents -/

lemma consHead_ne_nil (c : Char) (ps : List (List Char)) : consHead c ps ≠ [] := by
  cases ps <;> simp [consHead]

lemma splitParas_ne_nil : ∀ t : List Char, splitParas t ≠ []
  | [] => by simp [splitParas]
  | [c] => by simp [splitParas]
  | c1 :: c2 :: rest => by
    simp only [splitParas]
    split_ifs
    · simp
    · exact consHead_ne_nil _ _
    · exact consHead_ne_nil _ _

lemma splitParas_mem_subset : ∀ (t : List Char) (q : List Char), q ∈ splitParas t →
    ∀ c ∈ q, c ∈ t
  | [], q, hq => by
    simp [splitParas] at hq
    subst hq
    intro c hc
    simp at hc
  | [a], q, hq => by
    simp [splitParas] at hq
    subst hq
    intro c hc
    simpa using hc
  | c1 :: c2 :: rest, q, hq => by
    intro c hc
    simp only [splitParas] at hq
    split_ifs at hq with h1 h2
    · rcases List.mem_cons.mp hq with h | h
      · subst h; simp at hc
      · have := splitParas_mem_subset rest q h c hc
        simp [this]
    · cases hsp : splitParas (c2 :: rest) with
      | nil => exact absurd hsp (splitParas_ne_nil _)
      | cons r rs =>
        rw [hsp] at hq
        simp only [consHead] at hq
        rcases List.mem_cons.mp hq with h | h
        · subst h
          rcases List.mem_cons.mp hc with h' | h'
          · subst h'; simp
          · have : c ∈ c2 :: rest :=
              splitParas_mem_subset (c2 :: rest) r (by rw [hsp]; simp) c h'
            exact List.mem_cons_of_mem _ this
        · have : c ∈ c2 :: rest :=
            splitParas_mem_subset (c2 :: rest) q (by rw [hsp]; simp [h]) c hc
          exact List.mem_cons_of_mem _ this
    · cases hsp : splitParas (c2 :: rest) with
      | nil => exact absurd hsp (splitParas_ne_nil _)
      | cons r rs =>
        rw [hsp] at hq
        simp only [consHead] at hq
        rcases List.mem_cons.mp hq with h | h
        · subst h
          rcases List.mem_cons.mp hc with h' | h'
          · subst h'; simp
          · have : c ∈ c2 :: rest :=
              splitParas_mem_subset (c2 :: rest) r (by rw [hsp]; simp) c h'
            exact List.mem_cons_of_mem _ this
        · have : c ∈ c2 :: rest :=
            splitParas_mem_subset (c2 :: rest) q (by rw [hsp]; simp [h]) c hc
          exact List.mem_cons_of_mem _ this

lemma wcAux_allWs : ∀ (s : List Char), (∀ c ∈ s, isWs c = true) → ∀ b, wcAux s b = 0 := by
  intro s
  induction s with
  | nil => intro _ b; rfl
  | cons c r ih =>
    intro h b
    rw [show wcAux (c :: r) b = if isWs c then wcAux r false else (if b then 0 else 1) + wcAux r true
        from rfl, if_pos (h c (by simp))]
    exact ih (fun x hx => h x (by simp [hx])) false

lemma joinParas_allWs : ∀ (ps : List (List Char)), (∀ q ∈ ps, ∀ c ∈ q, isWs c = true) →
    ∀ c ∈ joinParas ps, isWs c = true
  | [] => by intro _ c hc; simp [joinParas] at hc
  | [p] => by
    intro h c hc
    exact h p (by simp) c (by simpa [joinParas] using hc)
  | p :: q :: rest => by
    intro h c hc
    simp only [joinParas] at hc
    rcases List.mem_append.mp hc with h' | h'
    · exact h p (by simp) c h'
    · rcases List.mem_cons.mp h' with e | h''
      · subst e; decide
      · rcases List.mem_cons.mp h'' with e | h3
        · subst e; decide
        · exact joinParas_allWs (q :: rest) (fun r hr c' hc' => h r (by simp [hr]) c' hc') c h3

lemma allWs_strip_nil (q : List Char) (h : ∀ c ∈ q, isWs c = true) : stripChars q = [] := by
  have hs : q.dropWhile isWs = [] := List.dropWhile_eq_nil_iff.mpr h
  simp [stripChars, hs]

lemma allWs_not_header (q : List Char) (h : ∀ c ∈ q, isWs c = true) :
    hdrMatch (stripChars q) = false := by
  rw [allWs_strip_nil q h]
  decide

lemma isWs_cases (c : Char) (h : isWs c = true) :
    c = ' ' ∨ c = '\t' ∨ c = '\n' ∨ c = '\r' ∨ c = '\x0b' ∨ c = '\x0c' := by
  simp [isWs] at h
  tauto

lemma allWs_no_table (q : List Char) (h : ∀ c ∈ q, isWs c = true) : hasTable q = false := by
  induction q with
  | nil => rfl
  | cons c r ih =>
    have hc := h c (by simp)
    have hpf : tblO.isPrefixOf (c :: r) = false := by
      rcases isWs_cases c hc with e | e | e | e | e | e <;> subst e <;>
        simp [tblO, List.isPrefixOf]
    rw [show hasTable (c :: r)
          = (if tblO.isPrefixOf (c :: r) then hasSub tblC (List.drop 7 (c :: r))
             else hasTable r)
        from rfl, hpf]
    simp only [Bool.false_eq_true, if_false]
    exact ih (fun x hx => h x (by simp [hx]))

lemma allWs_no_image (q : List Char) (h : ∀ c ∈ q, isWs c = true) : hasImage q = false := by
  induction q with
  | nil => rfl
  | cons c r ih =>
    have hc := h c (by simp)
    have hne : ¬(c = '!') := by
      intro e; subst e; exact absurd hc (by decide)
    have himg : imgAt (c :: r) = false := by
      cases r with
      | nil => rfl
      | cons c2 r2 =>
        rw [show imgAt (c :: c2 :: r2) = (if c = '!' ∧ c2 = '[' then rbScan r2 else false)
            from rfl, if_neg (by intro hcj; exact hne hcj.1)]
    rw [show hasImage (c :: r) = (imgAt (c :: r) || hasImage r) from rfl, himg,
        ih (fun x hx => h x (by simp [hx]))]
    rfl

lemma stepPara_allWs (size : Int) (h0 : 0 < size) (cc : List (List Char)) (p : List Char)
    (hp : ∀ c ∈ p, isWs c = true) (hcc : ∀ q ∈ cc, ∀ c ∈ q, isWs c = true) :
    stepPara size ⟨cc, 0, []⟩ p = ([], ⟨cc ++ [p], 0, []⟩) := by
  have hwc : wordCount (joinParas (cc ++ [p])) = 0 := by
    refine wcAux_allWs _ (joinParas_allWs _ ?_) false
    intro q hq c hc
    rcases List.mem_append.mp hq with h | h
    · exact hcc q h c hc
    · rw [List.mem_singleton] at h
      subst h
      exact hp c hc
  have hns : ¬((wordCount (joinParas (cc ++ [p])) : Int) > size) := by
    rw [hwc]
    omega
  simp only [stepPara, allWs_not_header p hp, allWs_no_table p hp, allWs_no_image p hp,
    Bool.or_self, Bool.false_eq_true, if_false]
  rw [if_neg hns]

lemma stepParas_allWs (size : Int) (h0 : 0 < size) : ∀ (ps : List (List Char)),
    (∀ q ∈ ps, ∀ c ∈ q, isWs c = true) → ∀ (cc : List (List Char)),
    (∀ q ∈ cc, ∀ c ∈ q, isWs c = true) →
    stepParas size ⟨cc, 0, []⟩ ps = ([], ⟨cc ++ ps, 0, []⟩) := by
  intro ps
  induction ps with
  | nil => intro _ cc _; simp [stepParas]
  | cons p ps ih =>
    intro hps cc hcc
    have hstep := stepPara_allWs size h0 cc p (hps p (by simp)) hcc
    have hrec := ih (fun q hq => hps q (by simp [hq])) (cc ++ [p]) (by
      intro q hq c hc
      rcases List.mem_append.mp hq with h | h
      · exact hcc q h c hc
      · rw [List.mem_singleton] at h
        exact hps p (by simp) c (h ▸ hc))
    simp only [stepParas, hstep]
    rw [hrec]
    simp

lemma runFrom_chunks_tokens (size : Int) : ∀ (l : List (List Char)) (i : Nat),
    ∀ c ∈ chunksOf (runFrom size i l), c.n_tokens = wordCount c.text_chunk := by
  intro l
  induction l with
  | nil => intro i c hc; simp [runFrom, chunksOf] at hc
  | cons t ts ih =>
    intro i c hc
    simp only [runFrom] at hc
    rw [chunksOf_append, chunksOf_docEvents] at hc
    rcases List.mem_append.mp hc with h | h
    · obtain ⟨f, hf, he⟩ := List.mem_map.mp h
      obtain ⟨h1, _, _⟩ := chunksDoc_shape size t f hf
      subst he
      exact h1
    · exact ih (i + 1) c h

/-! ### Sample documents used in the concrete statements -/

/-- The document of the spec's concrete scenario. -/
def docC1 : List Char := ("# Title\n\nAlpha beta.\n\nGamma delta epsilon zeta.").data

/-- The two plain paragraphs of `docC1` joined by a blank line. -/
def bodyC1 : List Char := ("Alpha beta.\n\nGamma delta epsilon zeta.").data

/-- A document whose header context is re-appended after a size flush. -/
def docC8 : List Char := ("# A\n\nv w x\n\n![i](u)").data

/-- A table-bearing paragraph that also matches the header pattern. -/
def docC4 : List Char := ("# t <table>x</table>").data

/-- A plain table paragraph. -/
def tableDoc : List Char := ("<table>a b c</table>").data

/-- A two-word plain document. -/
def abDoc : List Char := ("alpha beta").data

/-- A one-word plain document. -/
def aDoc : List Char := ("a").data

/-- A paragraph whose first line is a header but which has further text. -/
def docC3 : List Char := ("# Title\nextra").data

/-- A plain single header line. -/
def hdrSample : List Char := ("# T").data

/-- A whitespace-only document. -/
def wsDoc : List Char := (" \n\n ").data

/-- The size-flushed record produced for `docC1` at `size = 3`. -/
def flushC2 : FlushRec :=
  ⟨bodyC1, 6, [], [("Alpha beta.").data, ("Gamma delta epsilon zeta.").data], true⟩

/-! ### Claims -/

/-- Claim C1 (counterexample): on `["# Title\n\nAlpha beta.\n\nGamma delta
epsilon zeta."]` with `max_size = 3` the emitted chunk's text is NOT the
header-prefixed text the claim expects: the size-triggered flush does not
attach the held header. -/
theorem c1_counterexample :
    List.map TextChunk.text_chunk (chunksOf (run_markdown [docC1] ⟨3, 0⟩)) ≠ [docC1] := by
  decide

/-- Claim C1 (amended): the run emits exactly one chunk whose text is the
two plain paragraphs joined by a blank line, without the header prefix
(6 tokens), followed by one tick; the held header `# Title` is dropped. -/
theorem c1_amended_run :
    run_markdown [docC1] ⟨3, 0⟩ = [Event.chunk ⟨bodyC1, [0], 6⟩, Event.tick] := by
  decide

/-- Claim C2 (counterexample): the document `"alpha beta"` with
`max_size = 1` yields a chunk with `n_tokens = 2 > 1` although the chunk
bears no table and no image: oversized atomic table/image chunks are not
the only chunks exceeding `max_size`. -/
theorem c2_counterexample :
    chunksOf (run_markdown [abDoc] ⟨1, 0⟩) = [⟨abDoc, [0], 2⟩] ∧
      hasTable abDoc = false ∧ hasImage abDoc = false ∧ ¬((2 : Int) ≤ 1) :=
  ⟨by decide, by decide, by decide, by decide⟩

/-- Claim C2 (amended): for every document and positive `max_size`, a chunk
flushed by the size check always has `token_estimate > max_size` (whatever
paragraph - plain or table/image - pushed it over), while a chunk flushed
by a header or by the end of the document has at most `max_size` words
beyond its attached header prefix: `token_estimate ≤ max_size +
word_count(header prefix)`. -/
theorem c2_amended_bound (size : Int) (t : List Char) (hs : 0 < size) :
    ∀ f ∈ chunksDoc size t,
      (f.viaSize = true → (f.tokens : Int) > size) ∧
        (f.viaSize = false → (f.tokens : Int) ≤ size + (wordCount f.hdr : Int)) := by
  intro f hf
  obtain ⟨h1, h2, h3⟩ := chunksDoc_shape size t f hf
  refine ⟨fun hv => (h3 hv).2, fun hv => ?_⟩
  have h4 := chunksDoc_inv size (le_of_lt hs) t f hf hv
  have h5 : f.tokens = wordCount f.hdr + wordCount (joinParas f.paras) := by
    rw [h1, h2, wordCount_mkText]
  rw [h5]
  push_cast
  omega

/-- Witness for C2's amended bound at the concrete size-flushed record of
`docC1`. -/
theorem c2_amended_bound_witness :
    ((0 : Int) < 3 ∧ flushC2 ∈ chunksDoc 3 docC1) ∧
      ((flushC2.viaSize = true → (flushC2.tokens : Int) > 3) ∧
        (flushC2.viaSize = false →
          (flushC2.tokens : Int) ≤ 3 + (wordCount flushC2.hdr : Int))) :=
  ⟨⟨by decide, by decide⟩, c2_amended_bound 3 docC1 (by decide) flushC2 (by decide)⟩

/-- Claim C4 (counterexample): the paragraph `"# t <table>x</table>"`
contains a bare table, but the header classification takes priority, the
paragraph becomes the held header and the run emits no chunk at all: the
table paragraph appears in zero chunks, not exactly one. -/
theorem c4_counterexample :
    hasTable docC4 = true ∧ chunksOf (run_markdown [docC4] ⟨100, 0⟩) = [] :=
  ⟨by decide, by decide⟩

/-- Claim C4 (amended): a table- or image-bearing paragraph that is NOT
header-classified and occurs exactly once among the document's paragraphs
lies, as a whole paragraph, in the pending list of exactly one emitted
chunk, and it appears uncut as a contiguous block of that chunk's text. -/
theorem c4_amended_atomicity (size : Int) (t : List Char) (p : List Char)
    (hp : nonHdr p = true) (hti : (hasTable p || hasImage p) = true)
    (h1 : countp p (splitParas t) = 1) (hne : t ≠ []) :
    List.countP (fun f => decide (p ∈ f.paras)) (chunksDoc size t) = 1 ∧
      ∀ f ∈ chunksDoc size t, p ∈ f.paras → ∃ a b, f.text = a ++ p ++ b := by
  constructor
  · have htr := chunksDoc_trace size t hne
    have e1 : countp p (recoveredParas size t) = 1 := by
      rw [← countp_filter_nonHdr p hp (recoveredParas size t), htr,
          countp_filter_nonHdr p hp, h1]
    have e2 := catPs_count_one p ((chunksDoc size t).map FlushRec.paras) e1
    rw [countP_map_paras] at e2
    exact e2
  · intro f hf hmem
    obtain ⟨_, h2, _⟩ := chunksDoc_shape size t f hf
    obtain ⟨a, b, hab⟩ := join_mem_split f.paras p hmem
    by_cases hh : f.hdr = []
    · refine ⟨a, b, ?_⟩
      rw [h2]
      simp only [mkText]
      rw [if_pos hh, hab]
    · refine ⟨f.hdr ++ '\n' :: '\n' :: a, b, ?_⟩
      rw [h2]
      simp only [mkText]
      rw [if_neg hh, hab]
      simp [List.append_assoc]

/-- Witness for C4's amended atomicity at a concrete plain table document. -/
theorem c4_amended_atomicity_witness :
    (nonHdr tableDoc = true ∧ (hasTable tableDoc || hasImage tableDoc) = true ∧
        countp tableDoc (splitParas tableDoc) = 1 ∧ tableDoc ≠ []) ∧
      (List.countP (fun f => decide (tableDoc ∈ f.paras)) (chunksDoc 1 tableDoc) = 1 ∧
        ∀ f ∈ chunksDoc 1 tableDoc, tableDoc ∈ f.paras →
          ∃ a b, f.text = a ++ tableDoc ++ b) :=
  ⟨⟨by decide, by decide, by decide, by decide⟩,
   c4_amended_atomicity 1 tableDoc tableDoc (by decide) (by decide) (by decide) (by decide)⟩

/-- Claim C5 (confirmed): every chunk of every run carries
`n_tokens = word_count(text)`, recomputed from the emitted text (header
prefix included), at every flush site. -/
theorem c5_token_recomputed (input : List (List Char)) (config : ChunkingConfig) :
    ∀ c ∈ chunksOf (run_markdown input config), c.n_tokens = wordCount c.text_chunk :=
  runFrom_chunks_tokens config.size input 0

/-- Witness for C5 at a concrete one-word document. -/
theorem c5_token_recomputed_witness :
    (⟨aDoc, [0], 1⟩ : TextChunk) ∈ chunksOf (run_markdown [aDoc] ⟨5, 0⟩) ∧
      (⟨aDoc, [0], 1⟩ : TextChunk).n_tokens = wordCount (⟨aDoc, [0], 1⟩ : TextChunk).text_chunk :=
  ⟨by decide, c5_token_recomputed [aDoc] ⟨5, 0⟩ ⟨aDoc, [0], 1⟩ (by decide)⟩

/-- Claim C6 (confirmed): two configurations that differ only in `overlap`
produce identical event sequences - the algorithm never reads `overlap`. -/
theorem c6_overlap_inert (input : List (List Char)) (size o1 o2 : Int) :
    run_markdown input ⟨size, o1⟩ = run_markdown input ⟨size, o2⟩ := rfl

/-- Claim C7 (confirmed): fully consuming the event sequence performs
exactly one `tick` per input document - after that document's chunks and
regardless of how many chunks it produced, the empty document included. -/
theorem c7_tick_count (input : List (List Char)) (config : ChunkingConfig) :
    tickCount (run_markdown input config) = input.length :=
  tickCount_runFrom config.size input 0

/-- Claim C8 (counterexample): for `"# A\n\nv w x\n\n![i](u)"` at
`max_size = 2` the paragraphs recovered from the chunks' pending lists come
out as `[v w x, # A, ![i](u)]`, while the source order of those same
paragraphs is `[# A, v w x, ![i](u)]`: the held header was re-appended as
seeded context after a size flush, out of source order. -/
theorem c8_counterexample :
    recoveredParas 2 docC8 = [("v w x").data, ("# A").data, ("![i](u)").data] ∧
      splitParas docC8 = [("# A").data, ("v w x").data, ("![i](u)").data] ∧
      recoveredParas 2 docC8
        ≠ (splitParas docC8).filter (fun q => decide (q ∈ recoveredParas 2 docC8)) :=
  ⟨by decide, by decide, by decide⟩

/-- Claim C8 (amended): restricted to paragraphs not classified as headers,
the paragraphs recovered from a document's chunks, in emission order,
reproduce exactly the document's paragraph sequence in source order; only
seeded header contexts can appear out of source order. -/
theorem c8_amended_order (size : Int) (t : List Char) (h : t ≠ []) :
    List.filter nonHdr (recoveredParas size t) = List.filter nonHdr (splitParas t) :=
  chunksDoc_trace size t h

/-- Witness for C8's amended order at the counterexample document. -/
theorem c8_amended_order_witness :
    docC8 ≠ [] ∧
      List.filter nonHdr (recoveredParas 2 docC8) = List.filter nonHdr (splitParas docC8) :=
  ⟨by decide, c8_amended_order 2 docC8 (by decide)⟩

/-- The behaviour claimed for a header paragraph of level
`L = hashCount (stripChars p)`: a chunk is flushed at that point iff the
pending list is non-empty and (`active_header_level = 0` or
`L ≤ active_header_level`); the flushed text is the pending paragraphs
joined by blank lines, prefixed by the active header when it is non-empty;
flushing resets the pending list, and in every case the new header becomes
the active header with level `L`. -/
def headerStepSpec (size : Int) (st : DocState) (p : List Char) : Prop :=
  ((stepPara size st p).1 ≠ [] ↔
    (st.current_chunk ≠ [] ∧
      (st.current_header_level = 0 ∨ hashCount (stripChars p) ≤ st.current_header_level))) ∧
  (∀ f ∈ (stepPara size st p).1,
    f.text = (if st.current_header ≠ []
              then st.current_header ++ '\n' :: '\n' :: joinParas st.current_chunk
              else joinParas st.current_chunk)) ∧
  ((stepPara size st p).1 ≠ [] → (stepPara size st p).2.current_chunk = []) ∧
  ((stepPara size st p).1 = [] → (stepPara size st p).2.current_chunk = st.current_chunk) ∧
  (stepPara size st p).2.current_header_level = hashCount (stripChars p) ∧
  (stepPara size st p).2.current_header = p

/-- Claim C9 (confirmed): on a header paragraph the step behaves exactly as
the claim describes. -/
theorem c9_header_flush (size : Int) (st : DocState) (p : List Char)
    (h : hdrMatch (stripChars p) = true) : headerStepSpec size st p := by
  unfold headerStepSpec
  by_cases hcond : st.current_chunk ≠ [] ∧
      (hashCount (stripChars p) ≤ st.current_header_level ∨ st.current_header_level = 0)
  · have hstep : stepPara size st p =
        ([{ text := mkText st.current_header st.current_chunk,
            tokens := wordCount (mkText st.current_header st.current_chunk),
            hdr := st.current_header, paras := st.current_chunk, viaSize := false }],
         { current_chunk := [], current_header_level := hashCount (stripChars p),
           current_header := p }) := by
      unfold stepPara
      rw [if_pos h, if_pos hcond]
    rw [hstep]
    refine ⟨?_, ?_, ?_, ?_, rfl, rfl⟩
    · constructor
      · intro _
        exact ⟨hcond.1, hcond.2.symm⟩
      · intro _
        simp
    · intro f hf
      rw [List.mem_singleton] at hf
      subst hf
      show mkText st.current_header st.current_chunk = _
      by_cases hh : st.current_header = []
      · simp [mkText, hh]
      · simp [mkText, hh]
    · intro _; rfl
    · intro hcontra
      cases hcontra
  · have hstep : stepPara size st p =
        ([], { current_chunk := st.current_chunk,
               current_header_level := hashCount (stripChars p), current_header := p }) := by
      unfold stepPara
      rw [if_pos h, if_neg hcond]
    rw [hstep]
    refine ⟨?_, ?_, ?_, ?_, rfl, rfl⟩
    · constructor
      · intro hcontra
        exact absurd rfl hcontra
      · intro hc
        exact absurd ⟨hc.1, hc.2.symm⟩ hcond
    · intro f hf
      simp at hf
    · intro hcontra
      exact absurd rfl hcontra
    · intro _; rfl

/-- The state used in the C9 witness. -/
def stC9 : DocState := ⟨[("x y").data], 1, ("# A").data⟩

/-- The header paragraph used in the C9 witness. -/
def pC9 : List Char := ("# B").data

/-- Witness for C9 at a concrete state and header paragraph. -/
theorem c9_header_flush_witness :
    hdrMatch (stripChars pC9) = true ∧ headerStepSpec 5 stC9 pC9 :=
  ⟨by decide, c9_header_flush 5 stC9 pC9 (by decide)⟩

/-- Claim C10 (confirmed): a non-empty, all-whitespace document yields
exactly one chunk, whose text is the whitespace paragraphs rejoined by
blank lines and whose `token_estimate` is 0, while the empty string yields
zero chunks. -/
theorem c10_whitespace_doc (size o : Int) (t : List Char) (h1 : t ≠ [])
    (h2 : ∀ c ∈ t, isWs c = true) (h3 : 0 < size) :
    chunksOf (run_markdown [t] ⟨size, o⟩) = [⟨joinParas (splitParas t), [0], 0⟩] ∧
      chunksOf (run_markdown [[]] ⟨size, o⟩) = [] := by
  constructor
  · have hws : ∀ q ∈ splitParas t, ∀ c ∈ q, isWs c = true :=
      fun q hq c hc => h2 c (splitParas_mem_subset t q hq c hc)
    have hsteps := stepParas_allWs size h3 (splitParas t) hws [] (by intro q hq; simp at hq)
    have hjoin : ∀ c ∈ joinParas (splitParas t), isWs c = true := joinParas_allWs _ hws
    have hwc : wordCount (joinParas (splitParas t)) = 0 := wcAux_allWs _ hjoin false
    have hfin : finalFlush ⟨splitParas t, 0, []⟩
        = [⟨joinParas (splitParas t), 0, [], splitParas t, false⟩] := by
      unfold finalFlush
      rw [if_neg (splitParas_ne_nil t)]
      simp [mkText, hwc]
    have hdoc : chunksDoc size t = [⟨joinParas (splitParas t), 0, [], splitParas t, false⟩] := by
      unfold chunksDoc
      rw [if_neg h1]
      rw [show initState = (⟨[], 0, []⟩ : DocState) from rfl, hsteps]
      simpa using hfin
    rw [show run_markdown [t] ⟨size, o⟩ = docEvents size 0 t ++ [] from rfl,
        List.append_nil, chunksOf_docEvents, hdoc]
    rfl
  · rfl

/-- Witness for C10 at the concrete whitespace document `" \n\n "`. -/
theorem c10_whitespace_doc_witness :
    (wsDoc ≠ [] ∧ (∀ c ∈ wsDoc, isWs c = true) ∧ (0 : Int) < 1) ∧
      (chunksOf (run_markdown [wsDoc] ⟨1, 0⟩) = [⟨joinParas (splitParas wsDoc), [0], 0⟩] ∧
        chunksOf (run_markdown [[]] ⟨1, 0⟩) = []) :=
  ⟨⟨by decide, by decide, by decide⟩,
   c10_whitespace_doc 1 0 wsDoc (by decide) (by decide) (by decide)⟩

/-- Claim C3 (counterexample): the paragraph `"# Title\nextra"` is
classified and processed as a header (the run holds it and emits nothing),
although after trimming the whole paragraph is not a single ATX header
line. -/
theorem c3_counterexample :
    hdrMatch (stripChars docC3) = true ∧ atxLineSpec (stripChars docC3) = false ∧
      chunksOf (run_markdown [docC3] ⟨100, 0⟩) = [] :=
  ⟨by decide, by decide, by decide⟩

/-- Claim C3 (amended): a paragraph is classified as a header iff its
trimmed form BEGINS with an ATX-style header: 1-6 `'#'` characters, one
whitespace character, then - possibly after further newlines - at least
one non-newline character; trailing material after the header line does
not prevent the classification. -/
theorem c3_amended_classification (p : List Char) :
    hdrMatch (stripChars p) = true ↔
      ∃ (k : Nat) (w : Char) (m : List Char) (c : Char) (r : List Char),
        1 ≤ k ∧ k ≤ 6 ∧ isWs w = true ∧ (∀ x ∈ m, x = '\n') ∧ c ≠ '\n' ∧
        stripChars p = List.replicate k '#' ++ w :: (m ++ c :: r) := by
  constructor
  · intro h
    unfold hdrMatch at h
    split at h
    · rename_i hk
      split at h
      · cases h
      · rename_i c0 rest heq
        rw [Bool.and_eq_true] at h
        obtain ⟨hws, hne⟩ := h
        have hne' : rest.dropWhile (fun x => decide (x = '\n')) ≠ [] := by
          intro e
          simp [e] at hne
        obtain ⟨m, c, r, hd1, hd2, hd3⟩ := dropWhile_ne_nil_decomp rest hne'
        refine ⟨hashCount (stripChars p), c0, m, c, r, hk.1, hk.2, hws, ?_, ?_, ?_⟩
        · intro x hx
          have := hd2 x hx
          simpa using this
        · simpa using hd3
        · conv_lhs => rw [hashCount_dropHash_decomp (stripChars p)]
          rw [heq, hd1]
    · cases h
  · rintro ⟨k, w, m, c, r, hk1, hk6, hws, hm, hc, heq⟩
    have hw : w ≠ '#' := isWs_ne_hash w hws
    have hhc : hashCount (stripChars p) = k := by
      rw [heq]
      exact hashCount_repl k w _ hw
    have hdr2 : dropHash (stripChars p) = w :: (m ++ c :: r) := by
      rw [heq]
      exact dropHash_repl k w _ hw
    unfold hdrMatch
    rw [if_pos (by rw [hhc]; exact ⟨hk1, hk6⟩), hdr2]
    show (isWs w && !((m ++ c :: r).dropWhile (fun x => decide (x = '\n'))).isEmpty) = true
    rw [dropWhile_all_append m (by intro x hx; simp [hm x hx]) c r (by simp [hc])]
    simp [hws]

/-- Witness for C3's amended characterisation at the header line `"# T"`. -/
theorem c3_amended_classification_witness :
    ∃ (k : Nat) (w : Char) (m : List Char) (c : Char) (r : List Char),
      1 ≤ k ∧ k ≤ 6 ∧ isWs w = true ∧ (∀ x ∈ m, x = '\n') ∧ c ≠ '\n' ∧
      stripChars hdrSample = List.replicate k '#' ++ w :: (m ++ c :: r) :=
  (c3_amended_classification hdrSample).mp (by decide)
